import Mathlib

/-!
Verification development for the live777 recording pipeline core:
the Recording Index (`liveion/src/recorder/index.rs`), the Upload Queue
Manager (`liveion/src/recorder/uploader.rs`) and the cascade admin route
(`liveion/src/route/admin.rs`).

The embedding models the in-memory maps as association lists with
replace-on-insert semantics (mirroring `HashMap::insert` / `remove` /
`get`), and the on-disk files as the list of logical JSON lines they
contain (one entry per line; serde serialization is deterministic, so
byte identity of the file coincides with equality of the entry lists).
Ambient wall-clock reads (`Utc::now()`) are passed as explicit arguments.
-/

/-- Modelled from the spec: the status enum of a recording session
(`api::recorder::RecordingStatus`, defined outside the provided sources);
the spec lists the variants Recording, Completed, Failed, Acked. -/
inductive RecordingStatus where
  | Recording
  | Completed
  | Failed
  | Acked
  deriving DecidableEq, Repr

/-- `RecordingIndexEntry` from `index.rs` (fields in declaration order;
i64/i32 become `Int`, u-sized counters become `Nat`). -/
structure RecordingIndexEntry where
  record : String
  stream : String
  record_dir : String
  mpd_path : String
  start_ts : Int
  end_ts : Option Int
  duration_ms : Option Int
  status : RecordingStatus
  node_alias : Option String
  updated_at : Int
  deriving DecidableEq, Repr

/-- `RecordingIndexEntry::key`: `format!("{}/{}", self.stream, self.record)`. -/
def RecordingIndexEntry.key (e : RecordingIndexEntry) : String :=
  e.stream ++ "/" ++ e.record

/-- Association-list lookup, mirroring `HashMap::get`. -/
def alLookup {α : Type} (k : String) : List (String × α) → Option α
  | [] => none
  | (k', v) :: t => if k' = k then some v else alLookup k t

/-- Association-list insert-or-replace, mirroring `HashMap::insert`. -/
def alInsert {α : Type} (k : String) (v : α) : List (String × α) → List (String × α)
  | [] => [(k, v)]
  | (k', v') :: t => if k' = k then (k, v) :: t else (k', v') :: alInsert k v t

/-- Association-list removal, mirroring `HashMap::remove`. -/
def alRemove {α : Type} (k : String) : List (String × α) → List (String × α)
  | [] => []
  | (k', v') :: t => if k' = k then t else (k', v') :: alRemove k t

/-- The map keys, in list order. -/
def alKeys {α : Type} (m : List (String × α)) : List String :=
  m.map Prod.fst

/-- State of `RecordingsIndex`: the in-memory map, the log file
(as its list of logical JSON lines) and the in-process write counter. -/
structure IndexState where
  entries : List (String × RecordingIndexEntry)
  file : List RecordingIndexEntry
  writeCount : Nat
  deriving DecidableEq, Repr

def emptyIndexState : IndexState :=
  { entries := [], file := [], writeCount := 0 }

/-- The line-log branch of `RecordingsIndex::load`: replay the lines in
order, inserting each entry at its key (`entries.insert(entry.key(), entry)`),
so the last line per key wins. -/
def loadIndex (file : List RecordingIndexEntry) :
    List (String × RecordingIndexEntry) :=
  file.foldl (fun m e => alInsert e.key e m) []

/-- The comparator of `RecordingsIndex::compact`:
`a.stream.cmp(&b.stream).then(a.record.cmp(&b.record))` as a `≤`-style Bool. -/
def entryLe (a b : RecordingIndexEntry) : Bool :=
  decide (a.stream < b.stream) ||
    (a.stream == b.stream && decide (a.record ≤ b.record))

/-- `RecordingsIndex::compact` / `compact_with_entries`: snapshot the map
values, sort by (stream, record), and replace the file with one line per
entry. The map itself is untouched. -/
def compactState (s : IndexState) : IndexState :=
  { s with file := (s.entries.map Prod.snd).mergeSort entryLe }

/-- `RecordingsIndex::append_entries_and_maybe_compact`: append the lines,
bump the write counter, and compact when the counter is an exact multiple
of 200. -/
def appendEntriesAndMaybeCompact (s : IndexState)
    (es : List RecordingIndexEntry) : IndexState :=
  if es.isEmpty then s
  else
    let count := s.writeCount + es.length
    let s' : IndexState := { s with file := s.file ++ es, writeCount := count }
    if count % 200 == 0 then compactState s' else s'

/-- `RecordingsIndex::upsert`: insert/replace in the map, then append the
entry as one log line. -/
def upsert (s : IndexState) (e : RecordingIndexEntry) : IndexState :=
  appendEntriesAndMaybeCompact
    { s with entries := alInsert e.key e s.entries } [e]

/-- `RecordingsIndex::update_status`: if the key exists, overwrite
status/end_ts/duration_ms, refresh updated_at (`now` stands for
`Utc::now().timestamp_micros()`), and append the updated entry; silently a
no-op when the key is absent. -/
def update_status (s : IndexState) (stream record : String)
    (status : RecordingStatus) (end_ts : Option Int)
    (duration_ms : Option Int) (now : Int) : IndexState :=
  let k := stream ++ "/" ++ record
  match alLookup k s.entries with
  | none => s
  | some e =>
    let e' := { e with
      status := status
      end_ts := end_ts
      duration_ms := duration_ms
      updated_at := now }
    appendEntriesAndMaybeCompact
      { s with entries := alInsert k e' s.entries } [e']

/-- `api::recorder::RecordingKey` (a (stream, record) pair, as used by
`ack` and `delete_acked`). -/
structure RecordingKey where
  stream : String
  record : String
  deriving DecidableEq, Repr

/-- The loop body of `delete_acked`: remove the named key only when its
current status is Acked, counting the removal. -/
def deleteStep (acc : List (String × RecordingIndexEntry) × Nat)
    (rk : RecordingKey) : List (String × RecordingIndexEntry) × Nat :=
  let k := rk.stream ++ "/" ++ rk.record
  match alLookup k acc.1 with
  | some e =>
    if e.status = RecordingStatus.Acked then (alRemove k acc.1, acc.2 + 1)
    else acc
  | none => acc

/-- `RecordingsIndex::delete_acked`: for each named key, remove it from the
map only when its current status is Acked, counting removals; compact (a
full file rewrite) when anything was removed. -/
def delete_acked (s : IndexState) (records : List RecordingKey) :
    IndexState × Nat :=
  let res := records.foldl deleteStep (s.entries, 0)
  let s' : IndexState := { s with entries := res.1 }
  if res.2 > 0 then (compactState s', res.2) else (s', res.2)

/-- `api::recorder::RecordingSession`, with the fields `list_sessions`
populates. -/
structure RecordingSession where
  id : Option String
  stream : String
  start_ts : Int
  end_ts : Option Int
  duration_ms : Option Int
  mpd_path : String
  status : RecordingStatus
  deriving DecidableEq, Repr

/-- The row-to-session projection inside `list_sessions`. -/
def toSession (r : RecordingIndexEntry) : RecordingSession :=
  { id := some r.record
    stream := r.stream
    start_ts := r.start_ts
    end_ts := r.end_ts
    duration_ms := r.duration_ms
    mpd_path := r.mpd_path
    status := r.status }

/-- The sort comparator of `list_sessions`: ascending `updated_at`. -/
def updatedLe (a b : RecordingIndexEntry) : Bool :=
  decide (a.updated_at ≤ b.updated_at)

/-- The three `retain` filters of `list_sessions`: optional stream
equality, optional `updated_at > since`, and the unconditional exclusion
of Acked entries. -/
def filteredRows (m : List (String × RecordingIndexEntry))
    (streamF : Option String) (sinceF : Option Int) :
    List RecordingIndexEntry :=
  let rows : List RecordingIndexEntry := m.map Prod.snd
  let rows : List RecordingIndexEntry := match streamF with
    | some s => rows.filter (fun r => r.stream == s)
    | none => rows
  let rows : List RecordingIndexEntry := match sinceF with
    | some since => rows.filter (fun r => decide (since < r.updated_at))
    | none => rows
  rows.filter (fun r => !(r.status == RecordingStatus.Acked))

/-- The rows `list_sessions` returns: filtered, sorted ascending by
`updated_at` (stable sort, as Rust's `sort_by`), truncated to the limit
(default 100 when 0 is passed). -/
def listRows (m : List (String × RecordingIndexEntry))
    (streamF : Option String) (sinceF : Option Int) (limit : Nat) :
    List RecordingIndexEntry :=
  let lim := if limit = 0 then 100 else limit
  let rows := (filteredRows m streamF sinceF).mergeSort updatedLe
  if rows.length > lim then rows.take lim else rows

/-- `RecordingsIndex::list_sessions`: the sessions plus the maximum
`updated_at` among the returned rows (`rows.iter().map(updated_at).max()`). -/
def list_sessions (m : List (String × RecordingIndexEntry))
    (streamF : Option String) (sinceF : Option Int) (limit : Nat) :
    List RecordingSession × Option Int :=
  let rows := listRows m streamF sinceF limit
  (rows.map toSession, (rows.map (fun r => r.updated_at)).max?)

/-- One mutation of the Recording Index, for replaying call sequences. -/
inductive IndexOp where
  | upsertOp (e : RecordingIndexEntry)
  | updateStatusOp (stream record : String) (status : RecordingStatus)
      (end_ts : Option Int) (duration_ms : Option Int) (now : Int)

def applyIndexOp (s : IndexState) : IndexOp → IndexState
  | .upsertOp e => upsert s e
  | .updateStatusOp st r stat e d n => update_status s st r stat e d n

def replayOps (ops : List IndexOp) : IndexState :=
  ops.foldl applyIndexOp emptyIndexState

/-! ## Upload Queue Manager -/

/-- `UploadEntry` from `uploader.rs`. -/
structure UploadEntry where
  id : String
  object_key : String
  local_path : String
  retry_count : Nat
  next_retry_at : Int
  deriving DecidableEq, Repr

/-- State of `UploadManager` relevant to the claims: the in-memory map and
the queue file (as its list of logical JSON lines). -/
structure UploadState where
  entries : List (String × UploadEntry)
  file : List UploadEntry
  deriving DecidableEq, Repr

/-- `UploadManager::persist_queue`: rewrite the file as a full snapshot of
the map values (atomic tmp-file + rename). -/
def persist_queue (s : UploadState) : UploadState :=
  { s with file := s.entries.map Prod.snd }

/-- `UploadManager::enqueue`: synthesize the id from the object key and the
current millisecond timestamp, insert a fresh entry (retry_count 0,
next_retry_at 0), persist the whole map. -/
def enqueue (s : UploadState) (object_key local_path : String)
    (nowMs : Int) : UploadState :=
  let entry : UploadEntry :=
    { id := object_key ++ ":" ++ toString nowMs
      object_key := object_key
      local_path := local_path
      retry_count := 0
      next_retry_at := 0 }
  persist_queue { s with entries := alInsert entry.id entry s.entries }

/-- `backoff_ts`'s delay: `(base * (1i64 << retry.min(10))).min(max).max(base)`
with base 5000 ms and max 600000 ms. -/
def backoff_delay (retry : Nat) : Int :=
  let base : Int := 5000
  let maxDelay : Int := 10 * 60 * 1000
  max (min (base * ((1 <<< min retry 10 : Nat) : Int)) maxDelay) base

/-- `backoff_ts`: current millisecond time plus the delay. -/
def backoff_ts (nowMs : Int) (retry : Nat) : Int :=
  nowMs + backoff_delay retry

/-- `PresignResponse` from `uploader.rs`. -/
structure PresignResponse where
  url : String
  headers : List (String × String)
  deriving DecidableEq, Repr

/-- Outcomes of the three effectful steps of `try_upload`: the presign
round-trip (`presign_put`, which turns request errors, non-success presign
statuses and decode failures into `Err`), the local-file read, and the PUT
send (`Err` is a network-level error, `ok code` a completed response). -/
structure UploadEnv where
  presignResult : Except String PresignResponse
  readResult : Except String (List UInt8)
  putResult : Except String Nat
  deriving Repr

/-- `reqwest::StatusCode::is_success`: 2xx. -/
def statusIsSuccess (code : Nat) : Bool :=
  200 ≤ code && code < 300

/-- `UploadManager::update_entry`: replace in the map, persist. -/
def update_entry (s : UploadState) (e : UploadEntry) : UploadState :=
  persist_queue { s with entries := alInsert e.id e s.entries }

/-- `UploadManager::remove_entry`: remove from the map, persist. -/
def remove_entry (s : UploadState) (id : String) : UploadState :=
  persist_queue { s with entries := alRemove id s.entries }

/-- `UploadManager::try_upload`: presign, read the local file, PUT. Early
`?`-propagation on any of the three leaves the state untouched; a completed
PUT with non-success status increments retry_count, recomputes
next_retry_at and persists; success removes the entry and persists. -/
def try_upload (env : UploadEnv) (entry : UploadEntry) (s : UploadState)
    (nowMs : Int) : Except String Unit × UploadState :=
  match env.presignResult with
  | .error e => (.error e, s)
  | .ok _ =>
    match env.readResult with
    | .error e => (.error e, s)
    | .ok _ =>
      match env.putResult with
      | .error e => (.error e, s)
      | .ok code =>
        if statusIsSuccess code then
          (.ok (), remove_entry s entry.id)
        else
          let entry' := { entry with
            retry_count := entry.retry_count + 1
            next_retry_at := backoff_ts nowMs (entry.retry_count + 1) }
          (.error ("upload failed: " ++ toString code), update_entry s entry')

/-! ## Cascade admin route -/

/-- What the `cascade` handler does with a request. -/
inductive CascadeOutcome where
  | clientError (msg : String)
  | pull (stream url : String) (token : Option String)
  | push (stream url : String) (token : Option String)
  deriving DecidableEq, Repr

/-- The `cascade` handler of `route/admin.rs`: match on
(source_url, target_url). -/
def cascade (stream : String) (source_url target_url : Option String)
    (token : Option String) : CascadeOutcome :=
  match source_url, target_url with
  | none, none =>
    .clientError "src and dst cannot be empty at the same time"
  | some _, some _ =>
    .clientError "src and dst cannot be non-empty at the same time"
  | some u, none => .pull stream u token
  | none, some u => .push stream u token

/-! ## Sample data for concrete witnesses -/

/-- A sample in-progress recording session. -/
def sampleRecording : RecordingIndexEntry :=
  { record := "r1", stream := "cam1", record_dir := "d", mpd_path := "m",
    start_ts := 1, end_ts := none, duration_ms := none,
    status := RecordingStatus.Recording, node_alias := none, updated_at := 5 }

/-- A sample completed recording session on another stream. -/
def sampleCompleted : RecordingIndexEntry :=
  { record := "r1", stream := "cam2", record_dir := "d2", mpd_path := "m2",
    start_ts := 2, end_ts := some 9, duration_ms := some 7000,
    status := RecordingStatus.Completed, node_alias := none, updated_at := 6 }

/-- A one-entry index state. -/
def sampleIndexState : IndexState :=
  { entries := [("cam1/r1", sampleRecording)], file := [sampleRecording],
    writeCount := 1 }

/-- A two-entry index state. -/
def samplePairState : IndexState :=
  { entries := [("cam2/r1", sampleCompleted), ("cam1/r1", sampleRecording)],
    file := [], writeCount := 0 }

/-! ## Invariant predicates -/

/-- Every binding stores an entry whose computed key is its map key — the
invariant that `HashMap` bindings produced by `load`, `upsert` and
`update_status` always satisfy. -/
def keyConsistent (m : List (String × RecordingIndexEntry)) : Prop :=
  ∀ p ∈ m, (Prod.snd p).key = Prod.fst p

/-- Two maps agree on every lookup (equality as finite maps). -/
def mapEquiv (m1 m2 : List (String × RecordingIndexEntry)) : Prop :=
  ∀ k, alLookup k m1 = alLookup k m2

/-- Reachable-state invariant of the Recording Index: distinct keys,
key-consistent bindings, and the on-disk log replays to the in-memory
map. -/
def IndexInv (s : IndexState) : Prop :=
  (alKeys s.entries).Nodup ∧ keyConsistent s.entries ∧
    mapEquiv (loadIndex s.file) s.entries

/-! ## Association-list lemmas -/

theorem alLookup_alInsert {α : Type} (q k : String) (v : α)
    (m : List (String × α)) :
    alLookup q (alInsert k v m) = if k = q then some v else alLookup q m := by
  induction m with
  | nil => by_cases h : k = q <;> simp [alInsert, alLookup, h]
  | cons p t ih =>
    obtain ⟨k', v'⟩ := p
    by_cases hk : k' = k
    · subst hk
      by_cases hq : k' = q <;> simp [alInsert, alLookup, hq]
    · by_cases hq : k' = q
      · subst hq
        have hkq : ¬ k = k' := fun h => hk h.symm
        simp [alInsert, alLookup, hk, hkq]
      · simp [alInsert, alLookup, hk, hq, ih]

theorem alLookup_mem {α : Type} {k : String} {v : α}
    {m : List (String × α)} (h : alLookup k m = some v) : (k, v) ∈ m := by
  induction m with
  | nil => simp [alLookup] at h
  | cons p t ih =>
    obtain ⟨k', v'⟩ := p
    by_cases hk : k' = k
    · subst hk
      simp [alLookup] at h
      simp [h]
    · simp [alLookup, hk] at h
      exact List.mem_cons_of_mem _ (ih h)

theorem mem_alInsert {α : Type} {p : String × α} {k : String} {v : α}
    {m : List (String × α)} (h : p ∈ alInsert k v m) :
    p = (k, v) ∨ p ∈ m := by
  induction m with
  | nil => simpa [alInsert] using h
  | cons q t ih =>
    obtain ⟨k', v'⟩ := q
    by_cases hk : k' = k
    · subst hk
      simp [alInsert] at h
      rcases h with h | h
      · exact Or.inl h
      · exact Or.inr (List.mem_cons_of_mem _ h)
    · simp [alInsert, hk] at h
      rcases h with h | h
      · exact Or.inr (by simp [h])
      · rcases ih h with h' | h'
        · exact Or.inl h'
        · exact Or.inr (List.mem_cons_of_mem _ h')

theorem alKeys_cons {α : Type} (p : String × α) (t : List (String × α)) :
    alKeys (p :: t) = p.1 :: alKeys t := rfl

theorem alKeys_alInsert_mem {α : Type} (k : String) (v : α)
    {m : List (String × α)} (h : k ∈ alKeys m) :
    alKeys (alInsert k v m) = alKeys m := by
  induction m with
  | nil => simp [alKeys] at h
  | cons p t ih =>
    obtain ⟨k', v'⟩ := p
    by_cases hk : k' = k
    · subst hk
      simp [alInsert, alKeys_cons]
    · rw [alKeys_cons, List.mem_cons] at h
      have h' : k ∈ alKeys t := by
        rcases h with h | h
        · exact absurd h.symm hk
        · exact h
      simp [alInsert, hk, alKeys_cons, ih h']

theorem alKeys_alInsert_not_mem {α : Type} (k : String) (v : α)
    {m : List (String × α)} (h : k ∉ alKeys m) :
    alKeys (alInsert k v m) = alKeys m ++ [k] := by
  induction m with
  | nil => simp [alInsert, alKeys]
  | cons p t ih =>
    obtain ⟨k', v'⟩ := p
    rw [alKeys_cons, List.mem_cons] at h
    push_neg at h
    by_cases hk : k' = k
    · exact absurd hk.symm h.1
    · simp [alInsert, hk, alKeys_cons, ih h.2]

theorem alKeys_nodup_alInsert {α : Type} (k : String) (v : α)
    {m : List (String × α)} (h : (alKeys m).Nodup) :
    (alKeys (alInsert k v m)).Nodup := by
  by_cases hmem : k ∈ alKeys m
  · rw [alKeys_alInsert_mem k v hmem]
    exact h
  · rw [alKeys_alInsert_not_mem k v hmem]
    refine h.append (List.nodup_singleton k) ?_
    intro x hx hx'
    rw [List.mem_singleton] at hx'
    subst hx'
    exact hmem hx

theorem alRemove_sublist {α : Type} (k : String) (m : List (String × α)) :
    (alRemove k m).Sublist m := by
  induction m with
  | nil => simp [alRemove]
  | cons p t ih =>
    obtain ⟨k', v'⟩ := p
    by_cases hk : k' = k
    · simp only [alRemove, hk, if_true]
      exact List.sublist_cons_self _ _
    · simp only [alRemove, hk, if_false]
      exact ih.cons₂ _

theorem alLookup_alRemove_ne {α : Type} (q k : String) (hne : k ≠ q)
    (m : List (String × α)) :
    alLookup q (alRemove k m) = alLookup q m := by
  induction m with
  | nil => simp [alRemove]
  | cons p t ih =>
    obtain ⟨k', v'⟩ := p
    by_cases hk : k' = k
    · subst hk
      simp [alRemove, alLookup, hne]
    · by_cases hq : k' = q
      · have h2 : ¬ q = k := fun h => hne h.symm
        simp [alRemove, alLookup, hk, hq, h2]
      · simp [alRemove, alLookup, hk, hq, ih]

theorem alLookup_eq_none_iff {α : Type} (q : String)
    (m : List (String × α)) :
    alLookup q m = none ↔ q ∉ alKeys m := by
  induction m with
  | nil => simp [alLookup, alKeys]
  | cons p t ih =>
    obtain ⟨k', v'⟩ := p
    by_cases hq : k' = q
    · subst hq
      simp [alLookup, alKeys_cons]
    · simp only [alLookup, if_neg hq, alKeys_cons]
      rw [ih, List.mem_cons]
      have h2 : ¬ q = k' := fun h => hq h.symm
      tauto

theorem alLookup_alRemove_none {α : Type} (q k : String)
    {m : List (String × α)} (h : alLookup q m = none) :
    alLookup q (alRemove k m) = none := by
  rw [alLookup_eq_none_iff] at h ⊢
  intro hmem
  exact h (((alRemove_sublist k m).map Prod.fst).subset hmem)

theorem length_alRemove_of_lookup {α : Type} {k : String} {v : α}
    {m : List (String × α)} (h : alLookup k m = some v) :
    (alRemove k m).length + 1 = m.length := by
  induction m with
  | nil => simp [alLookup] at h
  | cons p t ih =>
    obtain ⟨k', v'⟩ := p
    by_cases hk : k' = k
    · simp [alRemove, hk]
    · simp only [alLookup, hk, if_false] at h
      simp [alRemove, hk, ih h]

theorem length_alInsert_of_lookup {α : Type} (v : α) {k : String} {w : α}
    {m : List (String × α)} (h : alLookup k m = some w) :
    (alInsert k v m).length = m.length := by
  induction m with
  | nil => simp [alLookup] at h
  | cons p t ih =>
    obtain ⟨k', v'⟩ := p
    by_cases hk : k' = k
    · simp [alInsert, hk]
    · simp only [alLookup, hk, if_false] at h
      simp [alInsert, hk, ih h]

/-! ## Small structural lemmas about the index state -/

theorem compactState_entries (s : IndexState) :
    (compactState s).entries = s.entries := rfl

theorem appendEntriesAndMaybeCompact_entries (s : IndexState)
    (es : List RecordingIndexEntry) :
    (appendEntriesAndMaybeCompact s es).entries = s.entries := by
  by_cases h : es.isEmpty <;>
    by_cases h2 : (s.writeCount + es.length) % 200 == 0 <;>
      simp [appendEntriesAndMaybeCompact, h, h2, compactState]

theorem persist_queue_entries (s : UploadState) :
    (persist_queue s).entries = s.entries := rfl

/-- Rewriting of `backoff_delay` with the shift written as a power. -/
theorem backoff_delay_eq (r : Nat) :
    backoff_delay r =
      max (min (5000 * ((2 ^ min r 10 : Nat) : Int)) 600000) 5000 := by
  simp only [backoff_delay]
  rw [Nat.one_shiftLeft]
  norm_num

/-! ## Claim theorems: backoff, cascade, update_status, enqueue, try_upload -/

/-- C5: the retry delay equals
`clamp(5000 * 2^min(retry_count,10), 5000, 600000)` and `next_retry_at` is
the current millisecond time plus that delay; the delay is non-decreasing
in retry_count and equals the 600000 ms cap for every retry_count ≥ 7. -/
theorem backoff_spec :
    (∀ (nowMs : Int) (retry : Nat),
        backoff_ts nowMs retry =
          nowMs + max (min (5000 * (2 : Int) ^ min retry 10) 600000) 5000)
    ∧ (∀ r1 r2 : Nat, r1 ≤ r2 → backoff_delay r1 ≤ backoff_delay r2)
    ∧ (∀ r : Nat, 7 ≤ r → backoff_delay r = 600000) := by
  refine ⟨?_, ?_, ?_⟩
  · intro nowMs retry
    rw [backoff_ts, backoff_delay_eq]
    push_cast
    rfl
  · intro r1 r2 h
    rw [backoff_delay_eq, backoff_delay_eq]
    have hp : (2 ^ min r1 10 : Nat) ≤ 2 ^ min r2 10 :=
      Nat.pow_le_pow_right (by omega) (by omega)
    omega
  · intro r h
    rw [backoff_delay_eq]
    have hp : (2 ^ 7 : Nat) ≤ 2 ^ min r 10 :=
      Nat.pow_le_pow_right (by omega) (by omega)
    have h128 : (128 : Nat) ≤ 2 ^ min r 10 := by
      norm_num at hp
      omega
    omega

/-- Witness for C5 at concrete retry counts. -/
theorem backoff_spec_witness :
    backoff_ts 100 3 =
      100 + max (min (5000 * (2 : Int) ^ min 3 10) 600000) 5000
    ∧ backoff_delay 2 ≤ backoff_delay 5
    ∧ backoff_delay 8 = 600000 :=
  ⟨backoff_spec.1 100 3, backoff_spec.2.1 2 5 (by decide),
    backoff_spec.2.2 8 (by decide)⟩

/-- C8: a cascade request is rejected as a client error when source_url and
target_url are both absent or both present, and dispatched as pull
(source-only) or push (target-only) exactly when one URL is supplied. -/
theorem cascade_exactly_one (stream u v : String) (token : Option String) :
    cascade stream none none token =
      CascadeOutcome.clientError "src and dst cannot be empty at the same time"
    ∧ cascade stream (some u) (some v) token =
      CascadeOutcome.clientError
        "src and dst cannot be non-empty at the same time"
    ∧ cascade stream (some u) none token = CascadeOutcome.pull stream u token
    ∧ cascade stream none (some v) token = CascadeOutcome.push stream v token :=
  ⟨rfl, rfl, rfl, rfl⟩

/-- C9: `update_status` on an existing key overwrites end_ts and
duration_ms with exactly the supplied optional values (passing `none`
clears a previously-set field), alongside status and updated_at. -/
theorem update_status_overwrites (s : IndexState) (stream record : String)
    (st : RecordingStatus) (ets : Option Int) (dms : Option Int) (now : Int)
    (e : RecordingIndexEntry)
    (h : alLookup (stream ++ "/" ++ record) s.entries = some e) :
    alLookup (stream ++ "/" ++ record)
      (update_status s stream record st ets dms now).entries =
      some { e with
        status := st, end_ts := ets, duration_ms := dms, updated_at := now } := by
  simp only [update_status]
  rw [h]
  simp only [appendEntriesAndMaybeCompact_entries]
  rw [alLookup_alInsert]
  simp

/-- Witness for C9: an entry whose end_ts and duration_ms were set is
cleared back to `none` by an update that passes `none`. -/
theorem update_status_overwrites_witness :
    alLookup ("cam1" ++ "/" ++ "r1")
      (update_status
        { entries := [("cam1/r1",
            { record := "r1", stream := "cam1", record_dir := "d",
              mpd_path := "m", start_ts := 1, end_ts := some 9,
              duration_ms := some 8000, status := RecordingStatus.Completed,
              node_alias := none, updated_at := 2 })],
          file := [], writeCount := 0 }
        "cam1" "r1" RecordingStatus.Failed none none 7).entries =
      some { record := "r1", stream := "cam1", record_dir := "d",
             mpd_path := "m", start_ts := 1, end_ts := none,
             duration_ms := none, status := RecordingStatus.Failed,
             node_alias := none, updated_at := 7 } :=
  update_status_overwrites _ "cam1" "r1" RecordingStatus.Failed none none 7
    { record := "r1", stream := "cam1", record_dir := "d",
      mpd_path := "m", start_ts := 1, end_ts := some 9,
      duration_ms := some 8000, status := RecordingStatus.Completed,
      node_alias := none, updated_at := 2 } (by decide)

/-- C10: the job id synthesized by `enqueue` is the object_key plus the
current millisecond timestamp, so two calls with the same object_key
observing the same millisecond collide: the second call replaces the first
entry instead of adding a second job. -/
theorem enqueue_id_collision (s : UploadState) (k p1 p2 : String)
    (now : Int) :
    alLookup (k ++ ":" ++ toString now)
      (enqueue (enqueue s k p1 now) k p2 now).entries =
      some { id := k ++ ":" ++ toString now, object_key := k,
             local_path := p2, retry_count := 0, next_retry_at := 0 }
    ∧ (enqueue (enqueue s k p1 now) k p2 now).entries.length =
      (enqueue s k p1 now).entries.length := by
  constructor
  · simp only [enqueue, persist_queue_entries]
    rw [alLookup_alInsert]
    simp
  · simp only [enqueue, persist_queue_entries]
    have h1 : alLookup (k ++ ":" ++ toString now)
        (alInsert (k ++ ":" ++ toString now)
          { id := k ++ ":" ++ toString now, object_key := k,
            local_path := p1, retry_count := 0, next_retry_at := 0 }
          s.entries) =
        some { id := k ++ ":" ++ toString now, object_key := k,
               local_path := p1, retry_count := 0, next_retry_at := 0 } := by
      rw [alLookup_alInsert]
      simp
    exact length_alInsert_of_lookup _ h1

/-- C6: failures in steps 1–3 of `try_upload` (presign failure, local read
failure, network-level PUT error) propagate without touching the state;
a completed PUT with non-success status is the only case that increments
retry_count and recomputes next_retry_at; success removes the entry. -/
theorem try_upload_frame (env : UploadEnv) (entry : UploadEntry)
    (s : UploadState) (now : Int) :
    (∀ e, env.presignResult = Except.error e →
        try_upload env entry s now = (Except.error e, s))
    ∧ (∀ p e, env.presignResult = Except.ok p →
        env.readResult = Except.error e →
        try_upload env entry s now = (Except.error e, s))
    ∧ (∀ p b e, env.presignResult = Except.ok p →
        env.readResult = Except.ok b → env.putResult = Except.error e →
        try_upload env entry s now = (Except.error e, s))
    ∧ (∀ p b code, env.presignResult = Except.ok p →
        env.readResult = Except.ok b → env.putResult = Except.ok code →
        statusIsSuccess code = false →
        try_upload env entry s now =
          (Except.error ("upload failed: " ++ toString code),
           update_entry s { entry with
             retry_count := entry.retry_count + 1,
             next_retry_at := backoff_ts now (entry.retry_count + 1) }))
    ∧ (∀ p b code, env.presignResult = Except.ok p →
        env.readResult = Except.ok b → env.putResult = Except.ok code →
        statusIsSuccess code = true →
        try_upload env entry s now = (Except.ok (), remove_entry s entry.id)) := by
  obtain ⟨pr, rr, putr⟩ := env
  refine ⟨?_, ?_, ?_, ?_, ?_⟩
  · intro e he
    simp only at he
    subst he
    rfl
  · intro p e hp he
    simp only at hp he
    subst hp
    subst he
    rfl
  · intro p b e hp hb he
    simp only at hp hb he
    subst hp
    subst hb
    subst he
    rfl
  · intro p b code hp hb hc hfail
    simp only at hp hb hc
    subst hp
    subst hb
    subst hc
    simp [try_upload, hfail]
  · intro p b code hp hb hc hok
    simp only at hp hb hc
    subst hp
    subst hb
    subst hc
    simp [try_upload, hok]

/-- Witness for C6: a presign failure and a completed non-success PUT, on a
concrete one-entry queue. -/
theorem try_upload_frame_witness :
    try_upload
      { presignResult := Except.error "presign failed: 500",
        readResult := Except.ok [], putResult := Except.ok 200 }
      { id := "k:1", object_key := "k", local_path := "p",
        retry_count := 0, next_retry_at := 0 }
      { entries := [("k:1",
          { id := "k:1", object_key := "k", local_path := "p",
            retry_count := 0, next_retry_at := 0 })],
        file := [{ id := "k:1", object_key := "k", local_path := "p",
                   retry_count := 0, next_retry_at := 0 }] } 1000 =
      (Except.error "presign failed: 500",
       { entries := [("k:1",
           { id := "k:1", object_key := "k", local_path := "p",
             retry_count := 0, next_retry_at := 0 })],
         file := [{ id := "k:1", object_key := "k", local_path := "p",
                    retry_count := 0, next_retry_at := 0 }] })
    ∧ try_upload
      { presignResult := Except.ok { url := "u", headers := [] },
        readResult := Except.ok [], putResult := Except.ok 503 }
      { id := "k:1", object_key := "k", local_path := "p",
        retry_count := 0, next_retry_at := 0 }
      { entries := [("k:1",
          { id := "k:1", object_key := "k", local_path := "p",
            retry_count := 0, next_retry_at := 0 })],
        file := [{ id := "k:1", object_key := "k", local_path := "p",
                   retry_count := 0, next_retry_at := 0 }] } 1000 =
      (Except.error ("upload failed: " ++ toString 503),
       update_entry
         { entries := [("k:1",
             { id := "k:1", object_key := "k", local_path := "p",
               retry_count := 0, next_retry_at := 0 })],
           file := [{ id := "k:1", object_key := "k", local_path := "p",
                      retry_count := 0, next_retry_at := 0 }] }
         { id := "k:1", object_key := "k", local_path := "p",
           retry_count := 0 + 1, next_retry_at := backoff_ts 1000 (0 + 1) }) :=
  ⟨(try_upload_frame _ _ _ 1000).1 "presign failed: 500" rfl,
   (try_upload_frame _ _ _ 1000).2.2.2.1 { url := "u", headers := [] }
     [] 503 rfl rfl rfl (by decide)⟩

/-! ## Claim theorems: list_sessions Acked filter, delete guard, compaction -/

/-- The rows returned by `list_sessions` are a sublist of the sorted
filtered rows (truncation keeps a prefix). -/
theorem listRows_sublist (m : List (String × RecordingIndexEntry))
    (streamF : Option String) (sinceF : Option Int) (limit : Nat) :
    (listRows m streamF sinceF limit).Sublist
      ((filteredRows m streamF sinceF).mergeSort updatedLe) := by
  simp only [listRows]
  by_cases h : ((filteredRows m streamF sinceF).mergeSort updatedLe).length >
      (if limit = 0 then 100 else limit)
  · rw [if_pos h]
    exact List.take_sublist _ _
  · rw [if_neg h]

/-- C3: no Acked entry ever appears in `list_sessions` output, for every
map state and every combination of filters. -/
theorem list_sessions_no_acked (m : List (String × RecordingIndexEntry))
    (streamF : Option String) (sinceF : Option Int) (limit : Nat)
    (sess : RecordingSession)
    (h : sess ∈ (list_sessions m streamF sinceF limit).1) :
    sess.status ≠ RecordingStatus.Acked := by
  obtain ⟨r, hr, rfl⟩ := List.mem_map.mp h
  have hr' : r ∈ (filteredRows m streamF sinceF).mergeSort updatedLe :=
    (listRows_sublist m streamF sinceF limit).subset hr
  have hmem : r ∈ filteredRows m streamF sinceF :=
    (List.mergeSort_perm _ _).subset hr'
  have hacked := (List.mem_filter.mp hmem).2
  simp only [Bool.not_eq_eq_eq_not, Bool.not_true, beq_eq_false_iff_ne,
    ne_eq] at hacked
  simpa [toSession] using hacked

/-- Witness for C3 on a concrete one-entry map whose session is returned. -/
theorem list_sessions_no_acked_witness :
    toSession sampleRecording ∈
      (list_sessions sampleIndexState.entries none none 0).1
    ∧ (toSession sampleRecording).status ≠ RecordingStatus.Acked := by
  have hmem : toSession sampleRecording ∈
      (list_sessions sampleIndexState.entries none none 0).1 := by
    simp [list_sessions, listRows, filteredRows, sampleIndexState,
      sampleRecording]
  exact ⟨hmem, list_sessions_no_acked _ none none 0 _ hmem⟩

/-- Folding `deleteStep` never changes the binding of a key that is absent
or currently not Acked. -/
theorem deleteStep_fold_lookup_preserved :
    ∀ (records : List RecordingKey)
      (m : List (String × RecordingIndexEntry)) (n : Nat) (k : String),
      (∀ e, alLookup k m = some e → e.status ≠ RecordingStatus.Acked) →
      alLookup k (records.foldl deleteStep (m, n)).1 = alLookup k m := by
  intro records
  induction records with
  | nil => intro m n k hk; rfl
  | cons rk rest ih =>
    intro m n k hk
    rw [List.foldl_cons]
    rcases hstep : alLookup (rk.stream ++ "/" ++ rk.record) m with _ | e
    · rw [show deleteStep (m, n) rk = (m, n) by simp [deleteStep, hstep]]
      exact ih m n k hk
    · by_cases hacked : e.status = RecordingStatus.Acked
      · rw [show deleteStep (m, n) rk =
            (alRemove (rk.stream ++ "/" ++ rk.record) m, n + 1) by
          simp [deleteStep, hstep, hacked]]
        have hne : rk.stream ++ "/" ++ rk.record ≠ k := by
          intro hkeq
          subst hkeq
          exact hk e hstep hacked
        have hrem := alLookup_alRemove_ne k (rk.stream ++ "/" ++ rk.record)
          hne m
        rw [ih _ _ k (fun e' he' => hk e' (hrem ▸ he')), hrem]
      · rw [show deleteStep (m, n) rk = (m, n) by
          simp [deleteStep, hstep, hacked]]
        exact ih m n k hk

/-- Folding `deleteStep` increments the count exactly once per entry it
removes from the map. -/
theorem deleteStep_fold_count :
    ∀ (records : List RecordingKey)
      (m : List (String × RecordingIndexEntry)) (n : Nat),
      (records.foldl deleteStep (m, n)).2 +
        (records.foldl deleteStep (m, n)).1.length = n + m.length := by
  intro records
  induction records with
  | nil => intro m n; rfl
  | cons rk rest ih =>
    intro m n
    rw [List.foldl_cons]
    rcases hstep : alLookup (rk.stream ++ "/" ++ rk.record) m with _ | e
    · rw [show deleteStep (m, n) rk = (m, n) by simp [deleteStep, hstep]]
      exact ih m n
    · by_cases hacked : e.status = RecordingStatus.Acked
      · rw [show deleteStep (m, n) rk =
            (alRemove (rk.stream ++ "/" ++ rk.record) m, n + 1) by
          simp [deleteStep, hstep, hacked]]
        have hlen := length_alRemove_of_lookup hstep
        have := ih (alRemove (rk.stream ++ "/" ++ rk.record) m) (n + 1)
        omega
      · rw [show deleteStep (m, n) rk = (m, n) by
          simp [deleteStep, hstep, hacked]]
        exact ih m n

/-- The count produced by folding `deleteStep` never decreases. -/
theorem deleteStep_fold_count_ge :
    ∀ (records : List RecordingKey)
      (m : List (String × RecordingIndexEntry)) (n : Nat),
      n ≤ (records.foldl deleteStep (m, n)).2 := by
  intro records
  induction records with
  | nil => intro m n; exact le_refl n
  | cons rk rest ih =>
    intro m n
    rw [List.foldl_cons]
    rcases hstep : alLookup (rk.stream ++ "/" ++ rk.record) m with _ | e
    · rw [show deleteStep (m, n) rk = (m, n) by simp [deleteStep, hstep]]
      exact ih m n
    · by_cases hacked : e.status = RecordingStatus.Acked
      · rw [show deleteStep (m, n) rk =
            (alRemove (rk.stream ++ "/" ++ rk.record) m, n + 1) by
          simp [deleteStep, hstep, hacked]]
        exact le_trans (Nat.le_succ n) (ih _ _)
      · rw [show deleteStep (m, n) rk = (m, n) by
          simp [deleteStep, hstep, hacked]]
        exact ih m n

/-- If folding `deleteStep` removed nothing, the map is untouched. -/
theorem deleteStep_fold_map_of_count_eq :
    ∀ (records : List RecordingKey)
      (m : List (String × RecordingIndexEntry)) (n : Nat),
      (records.foldl deleteStep (m, n)).2 = n →
      (records.foldl deleteStep (m, n)).1 = m := by
  intro records
  induction records with
  | nil => intro m n _; rfl
  | cons rk rest ih =>
    intro m n h0
    rw [List.foldl_cons] at h0 ⊢
    rcases hstep : alLookup (rk.stream ++ "/" ++ rk.record) m with _ | e
    · rw [show deleteStep (m, n) rk = (m, n) by simp [deleteStep, hstep]] at h0 ⊢
      exact ih m n h0
    · by_cases hacked : e.status = RecordingStatus.Acked
      · rw [show deleteStep (m, n) rk =
            (alRemove (rk.stream ++ "/" ++ rk.record) m, n + 1) by
          simp [deleteStep, hstep, hacked]] at h0
        have := deleteStep_fold_count_ge rest
          (alRemove (rk.stream ++ "/" ++ rk.record) m) (n + 1)
        omega
      · rw [show deleteStep (m, n) rk = (m, n) by
          simp [deleteStep, hstep, hacked]] at h0 ⊢
        exact ih m n h0

/-- C4: `delete_acked` removes a key only when its status is Acked; keys
that are absent or not Acked keep their binding, the returned count equals
the number of entries actually removed, and a zero count leaves the whole
state (map and file) unchanged. -/
theorem delete_acked_guard (s : IndexState) (records : List RecordingKey) :
    (∀ k, (∀ e, alLookup k s.entries = some e →
          e.status ≠ RecordingStatus.Acked) →
        alLookup k (delete_acked s records).1.entries =
          alLookup k s.entries)
    ∧ (delete_acked s records).2 +
        (delete_acked s records).1.entries.length = s.entries.length
    ∧ ((delete_acked s records).2 = 0 → (delete_acked s records).1 = s) := by
  refine ⟨?_, ?_, ?_⟩
  · intro k hk
    have h1 := deleteStep_fold_lookup_preserved records s.entries 0 k hk
    simp only [delete_acked]
    split
    · rw [compactState_entries]
      exact h1
    · exact h1
  · have h2 := deleteStep_fold_count records s.entries 0
    simp only [delete_acked]
    split
    · rw [compactState_entries]
      dsimp only
      omega
    · dsimp only
      omega
  · intro h0
    simp only [delete_acked] at h0 ⊢
    have hres2 : (records.foldl deleteStep (s.entries, 0)).2 = 0 := by
      by_cases hc : (records.foldl deleteStep (s.entries, 0)).2 > 0
      · rw [if_pos hc] at h0
        exact h0
      · rw [if_neg hc] at h0
        exact h0
    rw [if_neg (by omega : ¬ (records.foldl deleteStep (s.entries, 0)).2 > 0)]
    have hmap := deleteStep_fold_map_of_count_eq records s.entries 0 hres2
    show ({ s with entries := (records.foldl deleteStep (s.entries, 0)).1 }
      : IndexState) = s
    rw [hmap]

/-- Witness for C4: deleting a Recording (non-Acked) key leaves the state
unchanged and returns count 0. -/
theorem delete_acked_guard_witness :
    alLookup "cam1/r1"
        (delete_acked sampleIndexState
          [{ stream := "cam1", record := "r1" }]).1.entries =
      alLookup "cam1/r1" sampleIndexState.entries
    ∧ (delete_acked sampleIndexState
        [{ stream := "cam1", record := "r1" }]).1 = sampleIndexState := by
  refine ⟨(delete_acked_guard _ _).1 "cam1/r1" ?_,
    (delete_acked_guard _ _).2.2 (by decide)⟩
  intro e he
  have he' : sampleRecording = e := by
    simpa [sampleIndexState, alLookup] using he
  subst he'
  decide

/-- The compaction comparator is transitive. -/
theorem entryLe_trans : ∀ a b c : RecordingIndexEntry,
    entryLe a b = true → entryLe b c = true → entryLe a c = true := by
  intro a b c hab hbc
  simp only [entryLe, Bool.or_eq_true, Bool.and_eq_true, beq_iff_eq,
    decide_eq_true_eq] at hab hbc ⊢
  rcases hab with h | ⟨h1, h2⟩ <;> rcases hbc with h' | ⟨h1', h2'⟩
  · exact Or.inl (h.trans h')
  · rw [h1'] at h
    exact Or.inl h
  · rw [h1]
    exact Or.inl h'
  · exact Or.inr ⟨h1.trans h1', h2.trans h2'⟩

/-- The compaction comparator is total. -/
theorem entryLe_total : ∀ a b : RecordingIndexEntry,
    (entryLe a b || entryLe b a) = true := by
  intro a b
  simp only [entryLe, Bool.or_eq_true, Bool.and_eq_true, beq_iff_eq,
    decide_eq_true_eq]
  rcases lt_trichotomy a.stream b.stream with h | h | h
  · exact Or.inl (Or.inl h)
  · rcases le_total a.record b.record with h2 | h2
    · exact Or.inl (Or.inr ⟨h, h2⟩)
    · exact Or.inr (Or.inr ⟨h.symm, h2⟩)
  · exact Or.inr (Or.inl h)

/-- C7: compacting twice with no intervening map mutation produces
byte-identical output, and that output is sorted by (stream, record) with
one line per key. -/
theorem compact_idempotent (s : IndexState)
    (hkc : ∀ p ∈ s.entries, (Prod.snd p).key = Prod.fst p)
    (hnd : (alKeys s.entries).Nodup) :
    (compactState (compactState s)).file = (compactState s).file
    ∧ List.Pairwise (fun a b => entryLe a b = true) (compactState s).file
    ∧ List.Pairwise
        (fun a b : RecordingIndexEntry => a.key ≠ b.key)
        (compactState s).file := by
  refine ⟨rfl, List.sorted_mergeSort entryLe_trans entryLe_total _, ?_⟩
  have hmapkeys :
      (s.entries.map Prod.snd).map RecordingIndexEntry.key =
        alKeys s.entries := by
    rw [List.map_map]
    exact List.map_congr_left hkc
  have h1 : ((s.entries.map Prod.snd).map RecordingIndexEntry.key).Nodup :=
    hmapkeys ▸ hnd
  have h2 : (((s.entries.map Prod.snd).mergeSort entryLe).map
      RecordingIndexEntry.key).Nodup :=
    (List.Perm.nodup_iff ((List.mergeSort_perm _ _).map _)).mpr h1
  exact List.pairwise_map.mp h2

/-- Witness for C7 on a concrete two-entry state. -/
theorem compact_idempotent_witness :
    (compactState (compactState samplePairState)).file =
      (compactState samplePairState).file
    ∧ List.Pairwise (fun a b => entryLe a b = true)
        (compactState samplePairState).file :=
  ⟨(compact_idempotent samplePairState (by decide) (by decide)).1,
   (compact_idempotent samplePairState (by decide) (by decide)).2.1⟩

/-! ## Claim theorem: pagination (C2) -/

/-- The list_sessions comparator is transitive. -/
theorem updatedLe_trans : ∀ a b c : RecordingIndexEntry,
    updatedLe a b = true → updatedLe b c = true → updatedLe a c = true := by
  intro a b c hab hbc
  simp only [updatedLe, decide_eq_true_eq] at hab hbc ⊢
  exact le_trans hab hbc

/-- The list_sessions comparator is total. -/
theorem updatedLe_total : ∀ a b : RecordingIndexEntry,
    (updatedLe a b || updatedLe b a) = true := by
  intro a b
  simp only [updatedLe, Bool.or_eq_true, decide_eq_true_eq]
  exact le_total _ _

/-- C2: with distinct `updated_at` among the filtered rows, `list_sessions`
with limit k returns exactly min(N, k) sessions (k = 0 meaning 100),
strictly ascending in `updated_at`, and the cursor is the maximum
`updated_at` among the returned rows, or none when the result is empty. -/
theorem list_sessions_pagination (m : List (String × RecordingIndexEntry))
    (streamF : Option String) (sinceF : Option Int) (limit : Nat)
    (hdist : ((filteredRows m streamF sinceF).map
        (fun r => r.updated_at)).Nodup) :
    (list_sessions m streamF sinceF limit).1.length =
      min (filteredRows m streamF sinceF).length
        (if limit = 0 then 100 else limit)
    ∧ (list_sessions m streamF sinceF limit).1 =
        (listRows m streamF sinceF limit).map toSession
    ∧ List.Pairwise (fun a b => a.updated_at < b.updated_at)
        (listRows m streamF sinceF limit)
    ∧ (list_sessions m streamF sinceF limit).2 =
        ((listRows m streamF sinceF limit).map (fun r => r.updated_at)).max?
    ∧ (listRows m streamF sinceF limit = [] →
        (list_sessions m streamF sinceF limit).2 = none) := by
  have hlen : ((filteredRows m streamF sinceF).mergeSort updatedLe).length =
      (filteredRows m streamF sinceF).length :=
    (List.mergeSort_perm _ _).length_eq
  refine ⟨?_, rfl, ?_, rfl, ?_⟩
  · simp only [list_sessions, List.length_map, listRows]
    by_cases h :
        ((filteredRows m streamF sinceF).mergeSort updatedLe).length >
          (if limit = 0 then 100 else limit)
    · rw [if_pos h, List.length_take]
      omega
    · rw [if_neg h]
      omega
  · have hsorted : List.Pairwise (fun a b => updatedLe a b = true)
        ((filteredRows m streamF sinceF).mergeSort updatedLe) :=
      List.sorted_mergeSort updatedLe_trans updatedLe_total _
    have hsub := listRows_sublist m streamF sinceF limit
    have hle := List.Pairwise.sublist hsub hsorted
    have hnd1 : (((filteredRows m streamF sinceF).mergeSort updatedLe).map
        (fun r => r.updated_at)).Nodup :=
      (List.Perm.nodup_iff ((List.mergeSort_perm _ _).map _)).mpr hdist
    have hnd2 : ((listRows m streamF sinceF limit).map
        (fun r => r.updated_at)).Nodup :=
      List.Nodup.sublist (hsub.map _) hnd1
    have hne := List.pairwise_map.mp hnd2
    refine (hle.and hne).imp ?_
    intro a b hab
    exact lt_of_le_of_ne
      (by simpa [updatedLe, decide_eq_true_eq] using hab.1) hab.2
  · intro h
    show ((listRows m streamF sinceF limit).map (fun r => r.updated_at)).max?
      = none
    rw [h]
    rfl

/-- Witness for C2 on the one-entry sample map with the default limit. -/
theorem list_sessions_pagination_witness :
    (list_sessions sampleIndexState.entries none none 0).1.length =
      min (filteredRows sampleIndexState.entries none none).length
        (if (0 : Nat) = 0 then 100 else 0) :=
  (list_sessions_pagination sampleIndexState.entries none none 0
    (by decide)).1

/-! ## Claim theorem: load/replay round-trip (C1) -/

theorem loadIndex_append (f : List RecordingIndexEntry)
    (e : RecordingIndexEntry) :
    loadIndex (f ++ [e]) = alInsert e.key e (loadIndex f) := by
  simp [loadIndex, List.foldl_append]

/-- Loading a line log looks up the last line whose key matches. -/
theorem loadIndex_lookup :
    ∀ (vs : List RecordingIndexEntry) (k : String),
      alLookup k (loadIndex vs) =
        vs.reverse.find? (fun v => v.key == k) := by
  intro vs
  induction vs using List.reverseRecOn with
  | nil => intro k; rfl
  | append_singleton ws w ih =>
    intro k
    rw [loadIndex_append, alLookup_alInsert, List.reverse_append]
    by_cases hw : w.key = k
    · simp [List.find?, hw]
    · have hww : (w.key == k) = false := by simp [hw]
      simp [List.find?, hw, hww, ih k]

/-- `find?` is permutation-invariant when at most one element matches. -/
theorem find_eq_of_perm_of_unique {α : Type} (l1 l2 : List α) (p : α → Bool)
    (hperm : l1.Perm l2)
    (huniq : ∀ a ∈ l1, ∀ b ∈ l1, p a = true → p b = true → a = b) :
    l1.find? p = l2.find? p := by
  rcases h1 : l1.find? p with _ | a
  · rcases h2 : l2.find? p with _ | b
    · rfl
    · exfalso
      have hb := List.find?_some h2
      have hbmem := hperm.mem_iff.mpr (List.mem_of_find?_eq_some h2)
      exact (List.find?_eq_none.mp h1 b hbmem) hb
  · rcases h2 : l2.find? p with _ | b
    · exfalso
      have ha := List.find?_some h1
      have hamem := hperm.mem_iff.mp (List.mem_of_find?_eq_some h1)
      exact (List.find?_eq_none.mp h2 a hamem) ha
    · have ha := List.find?_some h1
      have hb := List.find?_some h2
      have hamem := List.mem_of_find?_eq_some h1
      have hbmem := hperm.mem_iff.mpr (List.mem_of_find?_eq_some h2)
      rw [huniq a hamem b hbmem ha hb]

/-- A key-consistent map looks up the first value whose key matches. -/
theorem alLookup_eq_find_values (m : List (String × RecordingIndexEntry))
    (hkc : keyConsistent m) (k : String) :
    alLookup k m = (m.map Prod.snd).find? (fun v => v.key == k) := by
  induction m with
  | nil => rfl
  | cons p t ih =>
    obtain ⟨k', v'⟩ := p
    have hk' : v'.key = k' := hkc (k', v') (by simp)
    have hkc' : keyConsistent t := fun q hq => hkc q (List.mem_cons_of_mem _ hq)
    by_cases hq : k' = k
    · have hkk : (v'.key == k) = true := by
        rw [hk']
        simp [hq]
      simp only [alLookup, if_pos hq, List.map_cons, List.find?, hkk]
    · have hkk : (v'.key == k) = false := by
        rw [hk']
        simp [hq]
      simp only [alLookup, if_neg hq, List.map_cons, List.find?, hkk]
      exact ih hkc'

/-- Keys of the value snapshot are the map keys, for a key-consistent map. -/
theorem values_map_key (m : List (String × RecordingIndexEntry))
    (hkc : keyConsistent m) :
    (m.map Prod.snd).map RecordingIndexEntry.key = alKeys m := by
  rw [List.map_map]
  exact List.map_congr_left hkc

/-- Reloading any permutation of the value snapshot (in particular
compaction output) reproduces a nodup key-consistent map. -/
theorem load_mergeSort_equiv (m : List (String × RecordingIndexEntry))
    (hnd : (alKeys m).Nodup) (hkc : keyConsistent m) :
    mapEquiv (loadIndex ((m.map Prod.snd).mergeSort entryLe)) m := by
  intro k
  rw [loadIndex_lookup, alLookup_eq_find_values m hkc k]
  apply find_eq_of_perm_of_unique
  · exact (List.reverse_perm _).trans (List.mergeSort_perm _ _)
  · intro a ha b hb hpa hpb
    have hmem : ∀ x : RecordingIndexEntry,
        x ∈ ((m.map Prod.snd).mergeSort entryLe).reverse →
          x ∈ m.map Prod.snd := fun x hx =>
      ((List.reverse_perm _).trans (List.mergeSort_perm _ _)).subset hx
    have hknodup : ((m.map Prod.snd).map RecordingIndexEntry.key).Nodup := by
      rw [values_map_key m hkc]
      exact hnd
    have hka : a.key = k := by simpa using hpa
    have hkb : b.key = k := by simpa using hpb
    exact List.inj_on_of_nodup_map hknodup (hmem a ha) (hmem b hb)
      (hka.trans hkb.symm)

theorem IndexInv_empty : IndexInv emptyIndexState := by
  refine ⟨List.nodup_nil, ?_, ?_⟩
  · intro p hp
    simp [emptyIndexState] at hp
  · intro k
    rfl

/-- The common mutation shape of `upsert` and `update_status` preserves the
index invariant: insert a key-consistent binding, then append the same
entry (compacting when the counter trips). -/
theorem IndexInv_append (s : IndexState) (k : String)
    (e' : RecordingIndexEntry) (hinv : IndexInv s) (hkey : e'.key = k) :
    IndexInv (appendEntriesAndMaybeCompact
      { s with entries := alInsert k e' s.entries } [e']) := by
  obtain ⟨hnd, hkc, heq⟩ := hinv
  have hnd' : (alKeys (alInsert k e' s.entries)).Nodup :=
    alKeys_nodup_alInsert k e' hnd
  have hkc' : keyConsistent (alInsert k e' s.entries) := by
    intro p hp
    rcases mem_alInsert hp with h | h
    · subst h
      simpa using hkey
    · exact hkc p h
  simp only [appendEntriesAndMaybeCompact]
  rw [if_neg (by simp)]
  by_cases hc : ((s.writeCount + ([e'] : List RecordingIndexEntry).length)
      % 200 == 0) = true
  · rw [if_pos hc]
    exact ⟨hnd', hkc', load_mergeSort_equiv _ hnd' hkc'⟩
  · rw [if_neg hc]
    refine ⟨hnd', hkc', ?_⟩
    intro q
    show alLookup q (loadIndex (s.file ++ [e'])) =
      alLookup q (alInsert k e' s.entries)
    rw [loadIndex_append, hkey, alLookup_alInsert, alLookup_alInsert]
    by_cases hq : k = q
    · simp [hq]
    · simp [hq, heq q]

/-- Every index operation preserves the invariant. -/
theorem IndexInv_applyIndexOp (s : IndexState) (op : IndexOp)
    (hinv : IndexInv s) : IndexInv (applyIndexOp s op) := by
  cases op with
  | upsertOp e => exact IndexInv_append s e.key e hinv rfl
  | updateStatusOp stream record stat ets dms now =>
    show IndexInv (update_status s stream record stat ets dms now)
    simp only [update_status]
    rcases hl : alLookup (stream ++ "/" ++ record) s.entries with _ | e
    · exact hinv
    · have hmem := alLookup_mem hl
      have hke : e.key = stream ++ "/" ++ record := by
        simpa using hinv.2.1 _ hmem
      have hke' : ({ e with
          status := stat
          end_ts := ets
          duration_ms := dms
          updated_at := now } : RecordingIndexEntry).key =
            stream ++ "/" ++ record := by
        simpa [RecordingIndexEntry.key] using hke
      exact IndexInv_append s (stream ++ "/" ++ record)
        { e with
          status := stat
          end_ts := ets
          duration_ms := dms
          updated_at := now } hinv hke'

/-- Replaying any operation sequence from the empty index keeps the
invariant. -/
theorem IndexInv_replay (ops : List IndexOp) : IndexInv (replayOps ops) := by
  rw [replayOps]
  have h : ∀ (l : List IndexOp) (s : IndexState), IndexInv s →
      IndexInv (l.foldl applyIndexOp s) := by
    intro l
    induction l with
    | nil => intro s hs; exact hs
    | cons op rest ih =>
      intro s hs
      exact ih _ (IndexInv_applyIndexOp s op hs)
  exact h ops emptyIndexState IndexInv_empty

/-- C1: for every sequence of upsert / update_status calls starting from
the empty index, reloading the on-disk log reproduces exactly the current
in-memory map; and loading resolves each key to the last line written for
it (last-write-wins per key). -/
theorem roundtrip_load_replay :
    (∀ ops : List IndexOp,
        mapEquiv (loadIndex (replayOps ops).file) (replayOps ops).entries)
    ∧ (∀ (file : List RecordingIndexEntry) (k : String),
        alLookup k (loadIndex file) =
          file.reverse.find? (fun v => v.key == k)) :=
  ⟨fun ops => (IndexInv_replay ops).2.2, loadIndex_lookup⟩
